import Mathlib

/-!
Verification of the gdb pretty-printer script (`pretty-print.py`) of the
osdev repository.  Each decoder ("printer") of the script is shallowly
embedded as a Lean function over an explicit model of the debugger's
memory views: field reads that may fault become `Option`-valued reads,
pointer-chasing loops become fuel-indexed recursive functions, and the
regex-based dispatch chain becomes a decision chain over an executable
regular-expression matcher.
-/

namespace PrettyPrint

/-- A child entry value: either a real decoded value (`Sum.inl`) or an
error-marker string such as `"<Error>"` or `"[inaccessible]"` (`Sum.inr`). -/
abbrev ChildV := Sum Int String

/-! ## Compressed pair unpacking

`parseCompressedPairElement(elem)` returns `elem[elem.type.fields()[0]]`,
i.e. the first field of the carrier; `parseCompressedPair` applies it to
both fields of the pair record. -/

/-- A compressed-pair element carrier: the decoder only ever projects its
first declared field. -/
structure CPElem (α : Type) where
  firstField : α

/-- A compressed pair record with two carrier fields. -/
structure CPair (α β : Type) where
  fstCarrier : CPElem α
  sndCarrier : CPElem β

def parseCompressedPairElement {α : Type} (e : CPElem α) : α :=
  e.firstField

def parseCompressedPair {α β : Type} (p : CPair α β) : α × β :=
  (parseCompressedPairElement p.fstCarrier, parseCompressedPairElement p.sndCarrier)

/-! ## Generic field delegation (`delegateChildren`)

A python value is modelled as an optional list of named fields; `none`
models a value whose `type.fields()` raises `TypeError` (the outer
`except TypeError: return` path), and a field carrying `none` models a
field whose read `val[field]` raises (the inner `except` path, which
yields `(name, "<Error>")` and continues). -/

/-- Model of a structured value: `none` when `type.fields()` raises
`TypeError`; otherwise the ordered list of `(field name, readable value)`
with `none` for a field whose read faults. -/
abbrev PyStruct := Option (List (String × Option Int))

def delegateChildren (v : PyStruct) : List (String × ChildV) :=
  match v with
  | none => []
  | some fields =>
    fields.map fun f =>
      (f.1, match f.2 with
        | some x => Sum.inl x
        | none => Sum.inr "<Error>")

/-! ## Small-buffer-optimized string decoder (`stringPrinter`)

`to_string` unpacks the compressed pair `m_data`, projects the union
field `in`, and branches on `stackdata.end`: when it is `0` the inline
(stack) buffer `stackdata.str` is read, otherwise the heap pointer
`heapdata.m_ptr` is read. -/

structure StackData where
  /-- the `end` discriminant field of the stack representation -/
  endMark : Nat
  /-- the inline character buffer, already decoded to text -/
  str : String

structure HeapData where
  /-- heap pointer, modelled by the text it points at -/
  m_ptr : String

/-- The union `in` field holding both representations. -/
structure StringInner where
  stackdata : StackData
  heapdata : HeapData

/-- First element of the string's compressed pair: a carrier with the
single union field `in`. -/
structure StringDataCarrier where
  inUnion : StringInner

structure BasicString where
  m_data : CPair StringDataCarrier Unit

def stringToString (v : BasicString) : String :=
  let p := parseCompressedPair v.m_data
  let d := p.1.inUnion
  if d.stackdata.endMark = 0 then d.stackdata.str
  else d.heapdata.m_ptr

/-- Modelled from the spec's words (refinement comparison only): "if the
stack discriminant's end-marker is the zero sentinel, the string is
heap-resident — read through the heap pointer; otherwise read the inline
buffer directly". -/
def specStringDecode (v : BasicString) : String :=
  let p := parseCompressedPair v.m_data
  let d := p.1.inUnion
  if d.stackdata.endMark = 0 then d.heapdata.m_ptr
  else d.stackdata.str

/-! ## Circular linked list decoder (`listPrinter`)

Nodes live at addresses; `children` starts at `head['next']` and follows
`next` pointers, yielding `str(idx), node['value']` until the current
pointer equals the head node's own address.  The loop is embedded with an
explicit fuel parameter: `none` means the fuel was exhausted before the
head address was revisited. -/

structure LNode where
  next : Nat
  value : Int

abbrev LHeap := Nat → LNode

def listWalk (H : LHeap) (headAddr : Nat) : Nat → Nat → Nat → Option (List (String × Int))
  | 0, _, _ => none
  | fuel + 1, idx, a =>
    if a = headAddr then some []
    else (listWalk H headAddr fuel (idx + 1) (H a).next).map
      (fun rest => (toString idx, (H a).value) :: rest)

def listChildren (H : LHeap) (headAddr : Nat) (fuel : Nat) : Option (List (String × Int)) :=
  listWalk H headAddr fuel 0 (H headAddr).next

/-- `n`-fold iteration of the `next` pointer starting at `a`. -/
def nIter (H : LHeap) (a : Nat) : Nat → Nat
  | 0 => a
  | n + 1 => (H (nIter H a n)).next

/-- A well-formed circular list with sentinel head `head` and `S` value
nodes: following `next` from the head revisits the head exactly after
`S + 1` steps and not before. -/
def WellFormedList (H : LHeap) (headAddr S : Nat) : Prop :=
  (∀ i, 1 ≤ i → i ≤ S → nIter H headAddr i ≠ headAddr) ∧
    nIter H headAddr (S + 1) = headAddr

/-- The values the walk is expected to produce on a well-formed list. -/
def listVals (H : LHeap) (headAddr S : Nat) : List (String × Int) :=
  (List.range S).map fun i => (toString i, (H (nIter H headAddr (i + 1))).value)

/-- The walk terminates (for some finite fuel). -/
def ListDecodeTerminates (H : LHeap) (headAddr : Nat) : Prop :=
  ∃ fuel, (listChildren H headAddr fuel).isSome

/-- A heap whose every node points at address 1: starting from
`head = 0` the walk enters the self-loop at node 1 and never revisits
the head's address. -/
def brokenLHeap : LHeap := fun _ => ⟨1, 0⟩

/-! ## Iterator decoders (`listIteratorPrinter`, `rbtreeIteratorPrinter`,
`vectorIteratorPrinter`)

Memory is a partial map from addresses to values; `none` models an
inaccessible read (in particular the model memory used in the theorems
maps the null address to `none`).  A decoder result of `none` means the
decoder performed a faulting dereference. -/

abbrev PMem := Nat → Option Int

def listIteratorChildren (H : PMem) (p : Nat) : Option (List (String × Int)) :=
  if p = 0 then some [("addr", (p : Int))]
  else (H p).map fun v => [("addr", (p : Int)), ("value", v)]

def rbtreeIteratorChildren (H : PMem) (p : Nat) : Option (List (String × Int)) :=
  if p = 0 then some [("addr", (p : Int))]
  else (H p).map fun v => [("addr", (p : Int)), ("value", v)]

/-- `vectorIteratorPrinter.children` dereferences `m_ptr` unconditionally:
there is no null test before the dereference. -/
def vectorIteratorChildren (H : PMem) (m_ptr : Nat) : Option (List (String × Int)) :=
  (H m_ptr).map fun v => [("value", v)]

/-! ## Tuple decoder (`tuplePrinter`)

A tuple value is a chain of nodes, each carrying an optional `val` field
(absent exactly for the empty-tuple head, whose read raises) and an
optional `next` node.  The chain is modelled as the head's `val` field
plus the list of `val` fields of the successive `next` nodes; the list
ends at the first node that has no `next` field. -/

def tupleLabel (i : Nat) : String :=
  "<" ++ toString i ++ ">"

def tupleChildrenAux : Nat → Option Int → List (Option Int) → List (String × ChildV)
  | _, none, _ => []
  | i, some v, [] => [(tupleLabel i, Sum.inl v)]
  | i, some v, v' :: rest => (tupleLabel i, Sum.inl v) :: tupleChildrenAux (i + 1) v' rest

def tupleChildren (v0 : Option Int) (rest : List (Option Int)) : List (String × ChildV) :=
  let l := tupleChildrenAux 0 v0 rest
  if l.isEmpty then [("tuple of size 0", Sum.inr "")] else l

/-- The values actually yielded from a chain: stops at the first node
whose `val` read raises or that lacks a `next` field. -/
def chainVals : Option Int → List (Option Int) → List Int
  | none, _ => []
  | some v, [] => [v]
  | some v, v' :: rest => v :: chainVals v' rest

/-- The expected labelled form of a tuple child list. -/
def tupleLabeled : Nat → List Int → List (String × ChildV)
  | _, [] => []
  | i, v :: vs => (tupleLabel i, Sum.inl v) :: tupleLabeled (i + 1) vs

/-! ## Unique pointer decoder (`uniquePointerPrinter`)

`data` is a compressed `(pointer, deleter)` pair.  `children` always
yields the `[deleter]` pseudo-field first, then — only for a non-null
pointer — the pointee's fields through `delegateChildren`. -/

structure UniquePtr where
  data : CPair Nat Int
  typeName : String

/-- Structured memory: address of a value to its field list. -/
abbrev SMem := Nat → PyStruct

def hexString (n : Nat) : String :=
  (Nat.toDigits 16 n).asString

def uniquePointerToString (v : UniquePtr) : String :=
  let p := parseCompressedPair v.data
  if p.1 = 0 then "nullptr of " ++ v.typeName
  else v.typeName ++ " to 0x" ++ hexString p.1

def uniquePointerChildren (v : UniquePtr) (mem : SMem) : List (String × ChildV) :=
  let p := parseCompressedPair v.data
  ("[deleter]", Sum.inl p.2) ::
    (if p.1 = 0 then [] else delegateChildren (mem p.1))

/-! ## Atomically reference-counted pointer decoder (`ArcPrinter`)

The `NonNull` payload is either "thin" (a plain pointer to a structured
value) or a slice (data pointer plus length).  For the slice case
`children` walks indices `0 .. length-1`; reading element `idx` is
deferred until it is stringified, so an unreadable element (modelled by
`none`) yields the `"[inaccessible]"` marker at that index and stops the
sequence. -/

inductive NonNullPayload where
  | thin (pointee : PyStruct)
  | slice (elems : Nat → Option Int) (length : Nat)

def arcSliceChildren (elems : Nat → Option Int) : Nat → Nat → List (String × ChildV)
  | 0, _ => []
  | n + 1, idx =>
    match elems idx with
    | some v => (toString idx, Sum.inl v) :: arcSliceChildren elems n (idx + 1)
    | none => [(toString idx, Sum.inr "[inaccessible]")]

def arcChildren (p : NonNullPayload) : List (String × ChildV) :=
  match p with
  | .thin pointee => delegateChildren pointee
  | .slice elems length => arcSliceChildren elems length 0

/-! ## Red-black tree decoder (`rbtreePrinter`, `_leftmost`, `_next`)

A well-formed tree value is modelled by an abstract binary tree embedded
into a heap with the canonical binary addressing: the root lives at
address 1 and the children of the node at address `a` live at `2a` and
`2a + 1`.  Each heap node carries the `left`, `right` and `parent`
pointer fields (0 encoding a null pointer — in particular the root's
`parent` is 0) and the node's `value`, exactly the fields the script
reads.  The traversal loops of the script become fuel-indexed
recursions; `none` means a faulting read or fuel exhaustion. -/

inductive BTree where
  | leaf : BTree
  | node (l : BTree) (v : Int) (r : BTree) : BTree
deriving DecidableEq

namespace BTree

def size : BTree → Nat
  | .leaf => 0
  | .node l _ r => size l + size r + 1

def height : BTree → Nat
  | .leaf => 0
  | .node l _ r => max (height l) (height r) + 1

def inorder : BTree → List Int
  | .leaf => []
  | .node l v r => inorder l ++ v :: inorder r

/-- Binary-search-tree ordering of the stored keys. -/
def isBST : BTree → Bool
  | .leaf => true
  | .node l v r =>
    isBST l && isBST r && (inorder l).all (fun x => decide (x < v))
      && (inorder r).all (fun x => decide (v < x))

end BTree

/-- A heap node record with the pointer fields the script reads. -/
structure RNode where
  left : Nat
  right : Nat
  parent : Nat
  value : Int

abbrev RHeap := Nat → Option RNode

/-- Address stored in a parent's child pointer: 0 for a missing child. -/
def childAddr : BTree → Nat → Nat
  | .leaf, _ => 0
  | .node _ _ _, a => a

/-- Bit path (most significant first, below the leading 1) of a positive
address; fuel-indexed so that it evaluates by kernel reduction. -/
def addrPathAux : Nat → Nat → List Bool
  | 0, _ => []
  | fuel + 1, x =>
    if x ≤ 1 then []
    else addrPathAux fuel (x / 2) ++ [decide (x % 2 = 1)]

def addrPath (x : Nat) : List Bool :=
  addrPathAux x x

/-- Subtree of `t` reached by following a bit path from the root
(`false` = left, `true` = right). -/
def nodeAt (t : BTree) (p : List Bool) : Option BTree :=
  match p, t with
  | [], u => some u
  | _ :: _, .leaf => none
  | false :: bs, .node l _ _ => nodeAt l bs
  | true :: bs, .node _ _ r => nodeAt r bs
termination_by structural p

/-- The heap realising the canonical embedding of `t`. -/
def heapOf (t : BTree) (x : Nat) : Option RNode :=
  if x = 0 then none
  else
    match nodeAt t (addrPath x) with
    | some (.node l v r) =>
      some ⟨childAddr l (2 * x), childAddr r (2 * x + 1), x / 2, v⟩
    | _ => none

/-- `_leftmost`: follow `left` pointers while non-null. -/
def leftmostA (H : RHeap) : Nat → Nat → Option Nat
  | 0, _ => none
  | fuel + 1, a =>
    (H a).bind fun nd => if nd.left = 0 then some a else leftmostA H fuel nd.left

/-- The climbing loop inside `_next`: starting from the node at `r`,
repeatedly move to the parent until the root is passed (no successor) or
a node that is its own parent's left child is found (successor is that
parent).  Result `some none` is python `None` (no successor), result
`none` is a fault or fuel exhaustion. -/
def climbA (H : RHeap) : Nat → Nat → Option (Option Nat)
  | 0, _ => none
  | fuel + 1, r =>
    (H r).bind fun nd =>
      (H nd.parent).bind fun nd2 =>
        if nd2.parent = 0 then some none
        else
          (H nd2.parent).bind fun nd3 =>
            if nd3.left = nd.parent then some (some nd2.parent)
            else climbA H fuel nd.parent

/-- `_next`: the parent-pointer in-order successor step of the script. -/
def nextA (H : RHeap) (fuel : Nat) (a : Nat) : Option (Option Nat) :=
  (H a).bind fun nd =>
    if nd.right ≠ 0 then (leftmostA H fuel nd.right).map some
    else if nd.parent = 0 then some none
    else
      (H nd.parent).bind fun pnd =>
        if pnd.left = a then some (some nd.parent)
        else climbA H fuel a

/-- The `for i in range(size)` loop of `rbtreePrinter.children`: yield the
current node's value, step to the successor, stop early on python
`None`. -/
def rbtreeLoop (H : RHeap) (fuel : Nat) : Nat → Nat → Nat → Option (List (String × Int))
  | 0, _, _ => some []
  | k + 1, i, a =>
    (H a).bind fun nd =>
      (match nextA H fuel a with
        | none => none
        | some none => some []
        | some (some a2) => rbtreeLoop H fuel k (i + 1) a2).map
        fun rest => (toString i, nd.value) :: rest

/-- The tree value as the script sees it: `root_data` and `size_data`
compressed pairs (fused with allocator and comparator). -/
structure RBTreeInner where
  root_data : CPair Nat Unit
  size_data : CPair Nat Unit

def rbtreeChildren (H : RHeap) (v : RBTreeInner) (fuel : Nat) : Option (List (String × Int)) :=
  let root := (parseCompressedPair v.root_data).1
  let size := (parseCompressedPair v.size_data).1
  if root = 0 then some []
  else (leftmostA H fuel root).bind fun start => rbtreeLoop H fuel size 0 start

/-- The tree value whose stored root pointer and size match the embedded
tree `t`. -/
def mkRBTreeVal (t : BTree) : RBTreeInner :=
  ⟨⟨⟨childAddr t 1⟩, ⟨()⟩⟩, ⟨⟨t.size⟩, ⟨()⟩⟩⟩

/-- In-order list of `(address, value)` pairs of the embedding of a
subtree placed at address `a`. -/
def inorderPairs : BTree → Nat → List (Nat × Int)
  | .leaf, _ => []
  | .node l v r, a => inorderPairs l (2 * a) ++ (a, v) :: inorderPairs r (2 * a + 1)

/-- Address of the in-order minimum of a subtree placed at `a`. -/
def minAddr : BTree → Nat → Nat
  | .leaf, a => a
  | .node .leaf _ _, a => a
  | .node (.node x y z) _ _, a => minAddr (.node x y z) (2 * a)

/-- Address of the in-order maximum of a subtree placed at `a`. -/
def maxAddr : BTree → Nat → Nat
  | .leaf, a => a
  | .node _ _ .leaf, a => a
  | .node _ _ (.node x y z), a => maxAddr (.node x y z) (2 * a + 1)

/-- Expected labelled output of the tree walk. -/
def labelFrom : Nat → List (Nat × Int) → List (String × Int)
  | _, [] => []
  | i, p :: rest => (toString i, p.2) :: labelFrom (i + 1) rest

/-- Abstract result of the upward exit climb from the subtree rooted at
address `a`: move to the parent while the current address is a right
child (odd), then return the parent; `none` when the climb walks off the
root. -/
def parentExitAddr : Nat → Option Nat
  | 0 => none
  | 1 => none
  | a + 2 =>
    if (a + 2) % 2 = 0 then some ((a + 2) / 2)
    else parentExitAddr ((a + 2) / 2)
decreasing_by
  simp_wf
  omega

/-- The upward search of the climbing loop phrased as starting at the
current node (the script's checks before entering the loop coincide with
the first iteration of this function). -/
def upExitA (H : RHeap) : Nat → Nat → Option (Option Nat)
  | 0, _ => none
  | fuel + 1, a =>
    (H a).bind fun nd =>
      if nd.parent = 0 then some none
      else
        (H nd.parent).bind fun pnd =>
          if pnd.left = a then some (some nd.parent)
          else upExitA H fuel nd.parent

/-! ## Type-name pattern dispatch (`build_pretty_printer`)

The script tests the stripped type tag against a fixed sequence of
anchored regular expressions and returns the first printer whose pattern
matches.  The regexes are embedded as executable Brzozowski-derivative
matchers over an expression type with character classes (`.` is any
character except newline, python semantics).  `pyMatch` adds python's
`$`-before-trailing-newline rule. -/

inductive RE where
  | emp : RE
  | eps : RE
  | cls (f : Char → Bool) : RE
  | cat (r1 r2 : RE) : RE
  | alt (r1 r2 : RE) : RE
  | star (r : RE) : RE

namespace RE

def nullable : RE → Bool
  | .emp => false
  | .eps => true
  | .cls _ => false
  | .cat r1 r2 => nullable r1 && nullable r2
  | .alt r1 r2 => nullable r1 || nullable r2
  | .star _ => true

def deriv : RE → Char → RE
  | .emp, _ => .emp
  | .eps, _ => .emp
  | .cls f, c => if f c then .eps else .emp
  | .cat r1 r2, c =>
    if nullable r1 then .alt (.cat (deriv r1 c) r2) (deriv r2 c)
    else .cat (deriv r1 c) r2
  | .alt r1 r2, c => .alt (deriv r1 c) (deriv r2 c)
  | .star r, c => .cat (deriv r c) (.star r)

def rmatch : RE → List Char → Bool
  | r, [] => nullable r
  | r, c :: s => rmatch (deriv r c) s

/-- One character. -/
def chr (c : Char) : RE := .cls (· == c)

/-- A literal string. -/
def lit (s : String) : RE :=
  s.data.foldr (fun c r => .cat (chr c) r) .eps

/-- `.` — any character except newline. -/
def dot : RE := .cls (· != '\n')

/-- `.*` (also covers the lazy `.*?`, which denotes the same language). -/
def dotStar : RE := .star dot

/-- `.+` -/
def dotPlus : RE := .cat dot dotStar

/-- `X+` -/
def plus (r : RE) : RE := .cat r (.star r)

/-- python `re.match` of an `^...$`-anchored pattern: full match of the
string, or of the string minus a single trailing newline. -/
def pyMatch (r : RE) (s : String) : Bool :=
  rmatch r s.data ||
    match s.data.getLast? with
    | some c => c == '\n' && rmatch r s.data.dropLast
    | none => false

end RE

open RE in
/-- `^std::pair<.*, .*>$` -/
def patPair : RE := .cat (lit "std::pair<") (.cat dotStar (.cat (lit ", ") (.cat dotStar (lit ">"))))

open RE in
/-- `^std::tuple<.*>$` -/
def patTuple : RE := .cat (lit "std::tuple<") (.cat dotStar (lit ">"))

open RE in
/-- `^std::function<.*>$` -/
def patFunction : RE := .cat (lit "std::function<") (.cat dotStar (lit ">"))

open RE in
/-- `^std::reference_wrapper<.*>$` -/
def patRefWrapper : RE := .cat (lit "std::reference_wrapper<") (.cat dotStar (lit ">"))

open RE in
/-- `^std::list<.*, .*>::_iterator<.*?>$` -/
def patListIterator : RE :=
  .cat (lit "std::list<") (.cat dotStar (.cat (lit ", ")
    (.cat dotStar (.cat (lit ">::_iterator<") (.cat dotStar (lit ">"))))))

open RE in
/-- `^std::vector<.*, .*>::_iterator<.*?>$` -/
def patVectorIterator : RE :=
  .cat (lit "std::vector<") (.cat dotStar (.cat (lit ", ")
    (.cat dotStar (.cat (lit ">::_iterator<") (.cat dotStar (lit ">"))))))

open RE in
/-- `^std::list<.*, .*>$` -/
def patList : RE := .cat (lit "std::list<") (.cat dotStar (.cat (lit ", ") (.cat dotStar (lit ">"))))

open RE in
/-- `^std::vector<.*, .*>$` -/
def patVector : RE := .cat (lit "std::vector<") (.cat dotStar (.cat (lit ", ") (.cat dotStar (lit ">"))))

open RE in
/-- `^std::map<.*, .*, .*, .*>$` -/
def patMap : RE :=
  .cat (lit "std::map<") (.cat dotStar (.cat (lit ", ") (.cat dotStar (.cat (lit ", ")
    (.cat dotStar (.cat (lit ", ") (.cat dotStar (lit ">"))))))))

open RE in
/-- `^std::set<.*, .*, .*>$` -/
def patSet : RE :=
  .cat (lit "std::set<") (.cat dotStar (.cat (lit ", ")
    (.cat dotStar (.cat (lit ", ") (.cat dotStar (lit ">"))))))

open RE in
/-- `^std::impl::rbtree<.*, .*, .*>::_iterator<.*?>$` -/
def patRbtreeIterator : RE :=
  .cat (lit "std::impl::rbtree<") (.cat dotStar (.cat (lit ", ")
    (.cat dotStar (.cat (lit ", ")
      (.cat dotStar (.cat (lit ">::_iterator<") (.cat dotStar (lit ">"))))))))

open RE in
/-- `^std::basic_string<.*>$` -/
def patBasicString : RE := .cat (lit "std::basic_string<") (.cat dotStar (lit ">"))

open RE in
/-- `^types::string_view$` -/
def patStringView : RE := lit "types::string_view"

open RE in
/-- `^std::shared_ptr<.*>$` -/
def patSharedPtr : RE := .cat (lit "std::shared_ptr<") (.cat dotStar (lit ">"))

open RE in
/-- `^std::unique_ptr<.*>$` -/
def patUniquePtr : RE := .cat (lit "std::unique_ptr<") (.cat dotStar (lit ">"))

/-- `[a-zA-Z0-9_]` -/
def wordChar (c : Char) : Bool :=
  c.isAlpha || c.isDigit || c == '_'

/-- `[a-zA-Z_]` -/
def identChar (c : Char) : Bool :=
  c.isAlpha || c == '_'

/-- `[a-z_]` -/
def lowerChar (c : Char) : Bool :=
  c.isLower || c == '_'

open RE in
/-- `^.*::_access_[a-zA-Z0-9_]*$` -/
def patThreadLocal : RE := .cat dotStar (.cat (lit "::_access_") (.star (.cls wordChar)))

open RE in
/-- `^gbos_rust_part::sync::lock::Lock<.*>$` -/
def patLock : RE := .cat (lit "gbos_rust_part::sync::lock::Lock<") (.cat dotStar (lit ">"))

open RE in
/-- `^gbos_rust_part::kernel::mem::paging::Page$` -/
def patPage : RE := lit "gbos_rust_part::kernel::mem::paging::Page"

open RE in
/-- `^gbos_rust_part::kernel::([a-zA-Z_]+::)*Dentry$` -/
def patDentry : RE :=
  .cat (lit "gbos_rust_part::kernel::")
    (.cat (.star (.cat (plus (.cls identChar)) (lit "::"))) (lit "Dentry"))

open RE in
/-- `^(core::([a-z_]+::)+)UnsafeCell<.+>$` -/
def patUnsafeCell : RE :=
  .cat (lit "core::") (.cat (plus (.cat (plus (.cls lowerChar)) (lit "::")))
    (.cat (lit "UnsafeCell<") (.cat dotPlus (lit ">"))))

open RE in
/-- `^(core::([a-z_]+::)+)NonNull<.+>$` -/
def patNonNull : RE :=
  .cat (lit "core::") (.cat (plus (.cat (plus (.cls lowerChar)) (lit "::")))
    (.cat (lit "NonNull<") (.cat dotPlus (lit ">"))))

open RE in
/-- `^(alloc::([a-z_]+::)+)Arc<.+>$` -/
def patArc : RE :=
  .cat (lit "alloc::") (.cat (plus (.cat (plus (.cls lowerChar)) (lit "::")))
    (.cat (lit "Arc<") (.cat dotPlus (lit ">"))))

/-- The printer selected by a dispatch rule. -/
inductive PrinterKind where
  | pair | tuple | function | referenceWrapper
  | listIterator | vectorIterator
  | list | vector
  | treeMap | treeSet | rbtreeIterator
  | string | stringView
  | sharedPointer | uniquePointer
  | threadLocal | lock | page | dentry | unsafeCell | nonNull | arc
deriving DecidableEq

/-- The ordered dispatch rules, in the exact order the script tests
them. -/
def printerRules : List (RE × PrinterKind) :=
  [(patPair, .pair), (patTuple, .tuple), (patFunction, .function),
   (patRefWrapper, .referenceWrapper), (patListIterator, .listIterator),
   (patVectorIterator, .vectorIterator), (patList, .list), (patVector, .vector),
   (patMap, .treeMap), (patSet, .treeSet), (patRbtreeIterator, .rbtreeIterator),
   (patBasicString, .string), (patStringView, .stringView),
   (patSharedPtr, .sharedPointer), (patUniquePtr, .uniquePointer),
   (patThreadLocal, .threadLocal), (patLock, .lock), (patPage, .page),
   (patDentry, .dentry), (patUnsafeCell, .unsafeCell), (patNonNull, .nonNull),
   (patArc, .arc)]

/-- First rule whose pattern matches wins. -/
def firstMatch : List (RE × PrinterKind) → String → Option PrinterKind
  | [], _ => none
  | (p, k) :: rest, s => if RE.pyMatch p s then some k else firstMatch rest s

/-- `build_pretty_printer`: an anonymous type (no tag) gets no printer;
otherwise the tag is tested against the rules in order. -/
def build_pretty_printer (typename : Option String) : Option PrinterKind :=
  match typename with
  | none => none
  | some s => firstMatch printerRules s

/-! ## Theorems -/

/-! ### C1 — small-buffer string decoding -/

/-- Concrete string value: `end` marker is zero, inline text and heap
text differ. -/
def strEx : BasicString := ⟨⟨⟨⟨⟨⟨0, "inline"⟩, ⟨"heap"⟩⟩⟩⟩, ⟨()⟩⟩⟩

/-- C1 (counterexample): the claim says a zero end-marker selects the heap
pointer, but on a value with zero end-marker the decoder returns the
inline (stack) text, not the heap text. -/
theorem string_decode_claim_counterexample :
    stringToString strEx = "inline" ∧ specStringDecode strEx = "heap" ∧
      stringToString strEx ≠ specStringDecode strEx := by
  refine ⟨rfl, rfl, ?_⟩
  decide

/-- C1 (amended): when the stack representation's end-marker equals zero
the decoder reads the inline (stack) buffer, and otherwise it reads the
string through the heap pointer; `summary()` returns that decoded text. -/
theorem string_decoder_branch_behavior (v : BasicString) :
    (v.m_data.fstCarrier.firstField.inUnion.stackdata.endMark = 0 →
      stringToString v = v.m_data.fstCarrier.firstField.inUnion.stackdata.str) ∧
    (v.m_data.fstCarrier.firstField.inUnion.stackdata.endMark ≠ 0 →
      stringToString v = v.m_data.fstCarrier.firstField.inUnion.heapdata.m_ptr) := by
  constructor <;> intro h <;>
    simp [stringToString, parseCompressedPair, parseCompressedPairElement, h]

/-- Witness for `string_decoder_branch_behavior` at the concrete value
`strEx`. -/
theorem string_decoder_branch_behavior_witness :
    stringToString strEx = "inline" :=
  (string_decoder_branch_behavior strEx).1 rfl

/-! ### C2 — circular list traversal -/

theorem nIter_shift (H : LHeap) (a : Nat) :
    ∀ n, nIter H a (n + 1) = nIter H ((H a).next) n := by
  intro n
  induction n with
  | zero => rfl
  | succ n ih => rw [nIter, ih, nIter]

theorem listWalk_ok (H : LHeap) (headAddr : Nat) :
    ∀ (k : Nat) (a idx fuel : Nat), k < fuel →
      (∀ j, j < k → nIter H a j ≠ headAddr) → nIter H a k = headAddr →
      listWalk H headAddr fuel idx a =
        some ((List.range k).map fun i => (toString (idx + i), (H (nIter H a i)).value)) := by
  intro k
  induction k with
  | zero =>
    intro a idx fuel hf _ hstop
    obtain ⟨f, rfl⟩ : ∃ f, fuel = f + 1 := ⟨fuel - 1, by omega⟩
    simp [listWalk, show a = headAddr from hstop]
  | succ k ih =>
    intro a idx fuel hf hnot hstop
    obtain ⟨f, rfl⟩ : ∃ f, fuel = f + 1 := ⟨fuel - 1, by omega⟩
    have hne : a ≠ headAddr := by
      have := hnot 0 (by omega)
      simpa [nIter] using this
    have hrec := ih ((H a).next) (idx + 1) f (by omega)
      (fun j hj => by rw [← nIter_shift]; exact hnot (j + 1) (by omega))
      (by rw [← nIter_shift]; exact hstop)
    rw [listWalk, if_neg hne, hrec]
    simp only [Option.map_some, List.range_succ_eq_map, List.map_cons, List.map_map]
    refine congrArg some (List.cons_eq_cons.mpr ⟨by simp [nIter], ?_⟩)
    refine List.map_congr_left fun j _ => ?_
    have h1 : idx + 1 + j = idx + (j + 1) := by omega
    have h2 : nIter H ((H a).next) j = nIter H a (j + 1) := (nIter_shift H a j).symm
    simp [Function.comp, h1, h2]

/-- C2 (amended): for a well-formed circular list of size `S` the walk
from `head.next` terminates with fuel `S + 1` — it revisits the head's
address after exactly `S` value nodes, ignoring the stored size field —
and yields the `S` node values in order; but the address-identity stop
condition alone does not bound a broken `next` chain (see the
counterexample), so the walk is not terminating for every list. -/
theorem list_walk_wellformed (H : LHeap) (headAddr S : Nat)
    (hwf : WellFormedList H headAddr S) :
    listChildren H headAddr (S + 1) = some (listVals H headAddr S) ∧
      (listVals H headAddr S).length = S := by
  constructor
  · rw [listChildren]
    rw [listWalk_ok H headAddr S ((H headAddr).next) 0 (S + 1) (by omega)
      (fun j hj => by
        rw [← nIter_shift]
        exact hwf.1 (j + 1) (by omega) (by omega))
      (by rw [← nIter_shift]; exact hwf.2)]
    refine congrArg some (List.map_congr_left fun j _ => ?_)
    rw [← nIter_shift]
    simp
  · simp [listVals]

/-- Witness for `list_walk_wellformed`: a concrete well-formed two-node
circular list. -/
def exListHeap : LHeap := fun a =>
  if a = 0 then ⟨1, 0⟩ else if a = 1 then ⟨2, 10⟩ else ⟨0, 20⟩

theorem list_walk_wellformed_witness :
    listChildren exListHeap 0 3 = some [("0", 10), ("1", 20)] := by
  have h := list_walk_wellformed exListHeap 0 2
    ⟨fun i h1 h2 => by interval_cases i <;> decide, by decide⟩
  rw [h.1]
  decide

theorem broken_walk_none : ∀ fuel idx, listWalk brokenLHeap 0 fuel idx 1 = none := by
  intro fuel
  induction fuel with
  | zero => intro idx; rfl
  | succ f ih => intro idx; simp [listWalk, brokenLHeap, ih]

/-- C2 (counterexample): on a list whose `next` chain is broken — every
node points at node 1, which is not the head — the `children()` walk
never terminates: no amount of fuel makes it stop, because the head's
address is never revisited. -/
theorem list_walk_nontermination_counterexample :
    ¬ ListDecodeTerminates brokenLHeap 0 := by
  rintro ⟨fuel, h⟩
  rw [listChildren, show (brokenLHeap 0).next = 1 from rfl, broken_walk_none] at h
  simp at h

/-! ### C4 — dispatch priority -/

def vecIterName : String := "std::vector<int, A>::_iterator<int>"

def vecName : String := "std::vector<int, A>"

/-- C4: dispatch tests the type-name patterns in a fixed priority order
and the first match wins (`build_pretty_printer` is exactly the ordered
first-match over `printerRules`); the iterator-of-vector name — of which
the bare vector name is a textual prefix, and which matches the bare
vector pattern as well — selects the vector-iterator decoder, while the
bare vector name selects the distinct vector decoder. -/
theorem dispatch_priority_order :
    (∀ s, build_pretty_printer (some s) = firstMatch printerRules s) ∧
    build_pretty_printer (some vecIterName) = some PrinterKind.vectorIterator ∧
    build_pretty_printer (some vecName) = some PrinterKind.vector ∧
    List.isPrefixOf vecName.data vecIterName.data = true ∧
    RE.pyMatch patVector vecIterName = true ∧
    PrinterKind.vectorIterator ≠ PrinterKind.vector := by
  exact ⟨fun s => rfl, by decide, by decide, by decide, by decide, by decide⟩

/-! ### C5 — Arc slice truncation at an unreadable element -/

theorem arcSlice_aux (elems : Nat → Option Int) :
    ∀ (k rem idx : Nat), k < rem →
      (∀ i, i < k → (elems (idx + i)).isSome) → elems (idx + k) = none →
      arcSliceChildren elems rem idx =
        ((List.range k).map fun i => (toString (idx + i), Sum.inl ((elems (idx + i)).getD 0))) ++
          [(toString (idx + k), Sum.inr "[inaccessible]")] := by
  intro k
  induction k with
  | zero =>
    intro rem idx hrem _ hbad
    obtain ⟨r, rfl⟩ : ∃ r, rem = r + 1 := ⟨rem - 1, by omega⟩
    simp only [Nat.add_zero] at hbad
    simp [arcSliceChildren, hbad]
  | succ k ih =>
    intro rem idx hrem hgood hbad
    obtain ⟨r, rfl⟩ : ∃ r, rem = r + 1 := ⟨rem - 1, by omega⟩
    obtain ⟨v, hv⟩ : ∃ v, elems idx = some v := by
      have := hgood 0 (by omega)
      simpa [Option.isSome_iff_exists] using this
    have hrec := ih r (idx + 1) (by omega)
      (fun i hi => by
        have h1 : idx + 1 + i = idx + (i + 1) := by omega
        rw [h1]; exact hgood (i + 1) (by omega))
      (by have h1 : idx + 1 + k = idx + (k + 1) := by omega
          rw [h1]; exact hbad)
    rw [arcSliceChildren, hv, hrec]
    simp only [List.range_succ_eq_map, List.map_cons, List.map_map, List.cons_append]
    refine List.cons_eq_cons.mpr ⟨by simp [hv], ?_⟩
    refine congrArg (· ++ _) ?_ |>.trans (by rw [show idx + 1 + k = idx + (k + 1) by omega])
    refine List.map_congr_left fun j _ => ?_
    have h1 : idx + 1 + j = idx + (j + 1) := by omega
    simp [Function.comp, h1]

/-- C5: decoding an Arc slice of `n` elements whose element at index `k`
is unreadable (the fault surfacing when the element is stringified)
yields exactly the `k` valid index-labelled entries, then the single
`"[inaccessible]"` marker at index `k`, and nothing after it. -/
theorem arc_slice_truncation (elems : Nat → Option Int) (n k : Nat) (hk : k < n)
    (hgood : ∀ i, i < k → (elems i).isSome) (hbad : elems k = none) :
    arcChildren (.slice elems n) =
      ((List.range k).map fun i => (toString i, Sum.inl ((elems i).getD 0))) ++
        [(toString k, Sum.inr "[inaccessible]")] := by
  have h := arcSlice_aux elems k n 0 hk (fun i hi => by simpa using hgood i hi)
    (by simpa using hbad)
  rw [arcChildren, h]
  simp

/-- Witness for `arc_slice_truncation`: a three-element byte slice whose
element 1 is unreadable yields entry 0, then the marker at index 1. -/
theorem arc_slice_truncation_witness :
    arcChildren (.slice (fun i => if i = 1 then none else some (i : Int)) 3) =
      [("0", Sum.inl 0), ("1", Sum.inr "[inaccessible]")] := by
  rw [arc_slice_truncation (fun i => if i = 1 then none else some (i : Int)) 3 1
    (by omega)
    (fun i hi => by
      have h0 : i = 0 := by omega
      subst h0; simp)
    (by simp)]
  decide

/-! ### C6 — generic field delegation with one bad field -/

/-- C6: when exactly one declared field is unreadable, `delegateChildren`
yields every other field normally in declared order and the single
unreadable field as `"<Error>"`; the bad field does not abort enumeration
of the rest. -/
theorem delegate_children_one_bad (pre post : List (String × Option Int)) (nj : String)
    (hpre : ∀ p ∈ pre, p.2.isSome) (hpost : ∀ p ∈ post, p.2.isSome) :
    delegateChildren (some (pre ++ (nj, none) :: post)) =
      (pre.map fun p => (p.1, Sum.inl (p.2.getD 0))) ++
        (nj, Sum.inr "<Error>") :: (post.map fun p => (p.1, Sum.inl (p.2.getD 0))) := by
  rw [delegateChildren]
  rw [List.map_append, List.map_cons]
  refine congrArg₂ _ ?_ (congrArg₂ _ rfl ?_)
  · refine List.map_congr_left fun p hp => ?_
    obtain ⟨x, hx⟩ := Option.isSome_iff_exists.mp (hpre p hp)
    simp [hx]
  · refine List.map_congr_left fun p hp => ?_
    obtain ⟨x, hx⟩ := Option.isSome_iff_exists.mp (hpost p hp)
    simp [hx]

/-- Witness for `delegate_children_one_bad` on a concrete three-field
value whose middle field is unreadable. -/
theorem delegate_children_one_bad_witness :
    delegateChildren (some [("a", some 1), ("b", none), ("c", some 3)]) =
      [("a", Sum.inl 1), ("b", Sum.inr "<Error>"), ("c", Sum.inl 3)] := by
  exact delegate_children_one_bad [("a", some 1)] [("c", some 3)] "b"
    (by simp) (by simp)

/-! ### C7 — empty tree decodes to zero children -/

/-- C7: when the stored root pointer is null, `children()` yields zero
entries, whatever the stored size field and heap contents are. -/
theorem rbtree_children_null_root :
    ∀ (H : RHeap) (storedSize fuel : Nat),
      rbtreeChildren H ⟨⟨⟨0⟩, ⟨()⟩⟩, ⟨⟨storedSize⟩, ⟨()⟩⟩⟩ fuel = some [] := by
  intro H storedSize fuel
  rfl

/-! ### C8 — unique pointer decoding -/

def uNullEx : UniquePtr := ⟨⟨⟨0⟩, ⟨7⟩⟩, "std::unique_ptr<int>"⟩

/-- C8 (counterexample): on a null unique pointer, `children()` does not
yield "nothing beyond the null marker": it yields the `[deleter]`
pseudo-field (the null marker itself only appears in the summary). -/
theorem unique_ptr_null_children_counterexample :
    uniquePointerChildren uNullEx (fun _ => none) = [("[deleter]", Sum.inl 7)] ∧
      uniquePointerChildren uNullEx (fun _ => none) ≠ [] ∧
      uniquePointerToString uNullEx = "nullptr of std::unique_ptr<int>" := by
  refine ⟨rfl, by decide, rfl⟩

/-- C8 (amended): for a null stored pointer, `summary()` reports the null
marker and `children()` yields exactly the `[deleter]` pseudo-field and
nothing else; for a non-null pointer, `summary()` reports the pointee
address and `children()` yields the deleter followed by the pointee's own
fields. -/
theorem unique_ptr_decoder_behavior (v : UniquePtr) (mem : SMem) :
    (v.data.fstCarrier.firstField = 0 →
      uniquePointerToString v = "nullptr of " ++ v.typeName ∧
      uniquePointerChildren v mem = [("[deleter]", Sum.inl v.data.sndCarrier.firstField)]) ∧
    (v.data.fstCarrier.firstField ≠ 0 →
      uniquePointerToString v = v.typeName ++ " to 0x" ++ hexString v.data.fstCarrier.firstField ∧
      uniquePointerChildren v mem =
        ("[deleter]", Sum.inl v.data.sndCarrier.firstField) ::
          delegateChildren (mem v.data.fstCarrier.firstField)) := by
  constructor <;> intro h <;>
    constructor <;>
      simp [uniquePointerToString, uniquePointerChildren, parseCompressedPair,
        parseCompressedPairElement, h]

def uPtrEx : UniquePtr := ⟨⟨⟨4⟩, ⟨9⟩⟩, "std::unique_ptr<S>"⟩

/-- Witness for `unique_ptr_decoder_behavior` at a null and a non-null
concrete unique pointer. -/
theorem unique_ptr_decoder_behavior_witness :
    (uniquePointerToString uNullEx = "nullptr of std::unique_ptr<int>" ∧
      uniquePointerChildren uNullEx (fun _ => none) = [("[deleter]", Sum.inl 7)]) ∧
    (uniquePointerToString uPtrEx = "std::unique_ptr<S> to 0x4" ∧
      uniquePointerChildren uPtrEx (fun _ => some [("f", some 5)]) =
        [("[deleter]", Sum.inl 9), ("f", Sum.inl 5)]) :=
  ⟨(unique_ptr_decoder_behavior uNullEx (fun _ => none)).1 rfl,
    (unique_ptr_decoder_behavior uPtrEx (fun _ => some [("f", some 5)])).2 (by decide)⟩

/-! ### C9 — null views and dereferences -/

/-- C9 (counterexample): the vector-iterator decoder does not test its
pointer against the null sentinel: on a null `m_ptr` (over a memory in
which the null address is unreadable) it performs the dereference and
faults, while the list-iterator decoder on the same memory returns
without dereferencing. -/
theorem null_deref_claim_counterexample :
    vectorIteratorChildren (fun _ => none) 0 = none ∧
      listIteratorChildren (fun _ => none) 0 = some [("addr", 0)] := by
  exact ⟨rfl, rfl⟩

/-- C9 (amended): the list-iterator and rbtree-iterator decoders test
their pointer against the null sentinel before dereferencing (on a null
pointer they stop after the `addr` entry, whatever the memory), but the
vector-iterator decoder dereferences its `m_ptr` unconditionally and
faults when the null view is unreadable. -/
theorem iterator_null_checks (H : PMem) :
    listIteratorChildren H 0 = some [("addr", 0)] ∧
      rbtreeIteratorChildren H 0 = some [("addr", 0)] ∧
      (H 0 = none → vectorIteratorChildren H 0 = none) := by
  refine ⟨rfl, rfl, fun h => ?_⟩
  rw [vectorIteratorChildren, h]
  rfl

/-- Witness for `iterator_null_checks` on the all-unreadable memory. -/
theorem iterator_null_checks_witness :
    listIteratorChildren (fun _ => none) 0 = some [("addr", 0)] ∧
      vectorIteratorChildren (fun _ => none) 0 = none :=
  ⟨(iterator_null_checks (fun _ => none)).1, (iterator_null_checks (fun _ => none)).2.2 rfl⟩

/-! ### C10 — tuple decoding -/

theorem tupleAux_eq :
    ∀ (rest : List (Option Int)) (i : Nat) (v0 : Option Int),
      tupleChildrenAux i v0 rest = tupleLabeled i (chainVals v0 rest) := by
  intro rest
  induction rest with
  | nil => intro i v0; cases v0 <;> rfl
  | cons v' r ih =>
    intro i v0
    cases v0 with
    | none => rfl
    | some v => simp [tupleChildrenAux, chainVals, tupleLabeled, ih]

theorem tupleLabeled_all_inl :
    ∀ (l : List Int) (i : Nat) (e : String × ChildV),
      e ∈ tupleLabeled i l → ∃ x, e.2 = Sum.inl x := by
  intro l
  induction l with
  | nil => intro i e h; simp [tupleLabeled] at h
  | cons v vs ih =>
    intro i e h
    rw [tupleLabeled] at h
    rcases List.mem_cons.mp h with h | h
    · exact ⟨v, by rw [h]⟩
    · exact ih (i + 1) e h

theorem tupleLabeled_labels :
    ∀ (l : List Int) (i : Nat),
      (tupleLabeled i l).map Prod.fst = (List.range l.length).map fun j => tupleLabel (i + j) := by
  intro l
  induction l with
  | nil => intro i; rfl
  | cons v vs ih =>
    intro i
    rw [tupleLabeled, List.map_cons, ih (i + 1)]
    simp only [List.length_cons, List.range_succ_eq_map, List.map_cons, List.map_map]
    refine List.cons_eq_cons.mpr ⟨by simp, List.map_congr_left fun j _ => ?_⟩
    have h1 : i + 1 + j = i + (j + 1) := by omega
    simp [Function.comp, h1]

theorem chainVals_cons (v : Int) (rest : List (Option Int)) :
    ∃ tl, chainVals (some v) rest = v :: tl := by
  cases rest with
  | nil => exact ⟨[], rfl⟩
  | cons v' r => exact ⟨chainVals v' r, rfl⟩

/-- C10: an empty tuple (the head's `val` read raises immediately) decodes
to exactly the single placeholder entry `("tuple of size 0", "")`; a
non-empty tuple decodes to the chain's values labelled `<0>`, `<1>`, …,
stopping at the first node lacking a `next` field, with no placeholder
entry (every yielded entry carries a real value). -/
theorem tuple_children_spec :
    (∀ rest, tupleChildren none rest = [("tuple of size 0", Sum.inr "")]) ∧
    (∀ (v : Int) (rest : List (Option Int)),
      tupleChildren (some v) rest = tupleLabeled 0 (chainVals (some v) rest) ∧
      (∀ e ∈ tupleChildren (some v) rest, ∃ x, e.2 = Sum.inl x) ∧
      (tupleChildren (some v) rest).map Prod.fst =
        (List.range (chainVals (some v) rest).length).map tupleLabel) := by
  constructor
  · intro rest
    cases rest <;> rfl
  · intro v rest
    obtain ⟨tl, htl⟩ := chainVals_cons v rest
    have hne : tupleChildren (some v) rest = tupleLabeled 0 (chainVals (some v) rest) := by
      rw [tupleChildren, tupleAux_eq, htl]
      rfl
    refine ⟨hne, fun e he => tupleLabeled_all_inl _ 0 e (hne ▸ he), ?_⟩
    rw [hne, tupleLabeled_labels]
    exact List.map_congr_left fun j _ => by simp

/-- Witness for `tuple_children_spec` on a concrete two-element tuple
chain. -/
theorem tuple_children_spec_witness :
    tupleChildren (some 5) [some 7] = tupleLabeled 0 (chainVals (some 5) [some 7]) ∧
      ∃ x, ((tupleLabel 0, Sum.inl 5) : String × ChildV).2 = Sum.inl x :=
  ⟨(tuple_children_spec.2 5 [some 7]).1,
    (tuple_children_spec.2 5 [some 7]).2.1 (tupleLabel 0, Sum.inl 5)
      (by rw [(tuple_children_spec.2 5 [some 7]).1]; exact List.mem_cons_self _ _)⟩

/-! ### C3 — red-black tree in-order decoding

Supporting development: the canonical binary addressing is related to the
tree structure (`addrPath`, `nodeAt`, `AtAddr`), then each loop of the
script is given its specification over the embedding `heapOf`. -/

theorem addrPathAux_congr :
    ∀ (f g x : Nat), x ≤ f → x ≤ g → addrPathAux f x = addrPathAux g x := by
  intro f
  induction f with
  | zero =>
    intro g x hf _
    have hx0 : x = 0 := by omega
    subst hx0
    cases g <;> rfl
  | succ f ih =>
    intro g x hf hg
    by_cases hx : x ≤ 1
    · cases g with
      | zero =>
        have hx0 : x = 0 := by omega
        subst hx0
        rfl
      | succ g' => rw [addrPathAux, addrPathAux, if_pos hx, if_pos hx]
    · obtain ⟨g', rfl⟩ : ∃ g', g = g' + 1 := ⟨g - 1, by omega⟩
      rw [addrPathAux, addrPathAux, if_neg hx, if_neg hx,
        ih g' (x / 2) (by omega) (by omega)]

theorem addrPath_ge_two (x : Nat) (h : 2 ≤ x) :
    addrPath x = addrPath (x / 2) ++ [decide (x % 2 = 1)] := by
  obtain ⟨f, rfl⟩ : ∃ f, x = f + 1 := ⟨x - 1, by omega⟩
  rw [addrPath, addrPathAux, if_neg (by omega)]
  rw [addrPath, addrPathAux_congr f ((f + 1) / 2) ((f + 1) / 2) (by omega) (le_refl _)]

theorem addrPath_double (a : Nat) (ha : 1 ≤ a) :
    addrPath (2 * a) = addrPath a ++ [false] := by
  rw [addrPath_ge_two _ (by omega)]
  have h1 : 2 * a / 2 = a := by omega
  have h2 : 2 * a % 2 = 0 := by omega
  rw [h1, h2]
  rfl

theorem addrPath_double_succ (a : Nat) (ha : 1 ≤ a) :
    addrPath (2 * a + 1) = addrPath a ++ [true] := by
  rw [addrPath_ge_two _ (by omega)]
  have h1 : (2 * a + 1) / 2 = a := by omega
  have h2 : (2 * a + 1) % 2 = 1 := by omega
  rw [h1, h2]
  rfl

theorem length_addrPath_ge_two (x : Nat) (h : 2 ≤ x) :
    (addrPath x).length = (addrPath (x / 2)).length + 1 := by
  rw [addrPath_ge_two x h]
  simp

theorem nodeAt_append (t : BTree) (p : List Bool) (b : Bool) :
    nodeAt t (p ++ [b]) =
      match nodeAt t p with
      | some (.node l _ r) => some (if b then r else l)
      | _ => none := by
  induction p generalizing t with
  | nil => cases t <;> cases b <;> rfl
  | cons c p' ih =>
    cases t with
    | leaf => cases c <;> rfl
    | node l v r =>
      cases c
      · exact ih l
      · exact ih r

theorem nodeAt_height (t : BTree) :
    ∀ (p : List Bool) (s : BTree), nodeAt t p = some s → s.height + p.length ≤ t.height := by
  induction t with
  | leaf =>
    intro p s h
    cases p with
    | nil =>
      cases h
      simp
    | cons b bs => exact absurd h (by rw [nodeAt]; simp)
  | node l v r ihl ihr =>
    intro p s h
    cases p with
    | nil =>
      cases h
      simp
    | cons b bs =>
      cases b with
      | false =>
        rw [nodeAt] at h
        have := ihl bs s h
        simp only [BTree.height, List.length_cons]
        omega
      | true =>
        rw [nodeAt] at h
        have := ihr bs s h
        simp only [BTree.height, List.length_cons]
        omega

/-- The subtree `s` of the embedded tree `t` sits at address `a`. -/
def AtAddr (t : BTree) (a : Nat) (s : BTree) : Prop :=
  1 ≤ a ∧ nodeAt t (addrPath a) = some s

theorem atAddr_root (t : BTree) : AtAddr t 1 t := by
  refine ⟨le_refl 1, ?_⟩
  rfl

theorem atAddr_left {t : BTree} {a : Nat} {l : BTree} {v : Int} {r : BTree}
    (h : AtAddr t a (.node l v r)) : AtAddr t (2 * a) l := by
  have h1 := h.1
  refine ⟨by omega, ?_⟩
  rw [addrPath_double a h1, nodeAt_append, h.2]
  rfl

theorem atAddr_right {t : BTree} {a : Nat} {l : BTree} {v : Int} {r : BTree}
    (h : AtAddr t a (.node l v r)) : AtAddr t (2 * a + 1) r := by
  have h1 := h.1
  refine ⟨by omega, ?_⟩
  rw [addrPath_double_succ a h1, nodeAt_append, h.2]
  rfl

theorem height_node (l : BTree) (v : Int) (r : BTree) :
    (BTree.node l v r).height = max l.height r.height + 1 :=
  rfl

theorem size_node (l : BTree) (v : Int) (r : BTree) :
    (BTree.node l v r).size = l.size + r.size + 1 :=
  rfl

theorem heapOf_at {t : BTree} {a : Nat} {l : BTree} {v : Int} {r : BTree}
    (h : AtAddr t a (.node l v r)) :
    heapOf t a = some ⟨childAddr l (2 * a), childAddr r (2 * a + 1), a / 2, v⟩ := by
  have h1 := h.1
  rw [heapOf, if_neg (by omega : ¬ a = 0), h.2]

theorem atAddr_parent {t : BTree} {a : Nat} {s : BTree} (h : AtAddr t a s) (ha : 2 ≤ a) :
    ∃ pl pv pr, AtAddr t (a / 2) (.node pl pv pr) ∧
      s = (if a % 2 = 1 then pr else pl) := by
  have h2 := h.2
  rw [addrPath_ge_two a ha, nodeAt_append] at h2
  cases hnp : nodeAt t (addrPath (a / 2)) with
  | none => rw [hnp] at h2; exact absurd h2 (by simp)
  | some u =>
    cases u with
    | leaf => rw [hnp] at h2; exact absurd h2 (by simp)
    | node pl pv pr =>
      rw [hnp] at h2
      refine ⟨pl, pv, pr, ⟨by omega, hnp⟩, ?_⟩
      simp only [Option.some.injEq] at h2
      rw [← h2]
      by_cases hm : a % 2 = 1 <;> simp [hm]

theorem height_le_of_atAddr {t : BTree} {a : Nat} {s : BTree} (h : AtAddr t a s) :
    s.height + (addrPath a).length ≤ t.height :=
  nodeAt_height t (addrPath a) s h.2

theorem leftmost_ok (t : BTree) :
    ∀ (s : BTree) (a fuel : Nat), AtAddr t a s → s ≠ .leaf → s.height ≤ fuel →
      leftmostA (heapOf t) fuel a = some (minAddr s a) := by
  intro s
  induction s with
  | leaf => intro a fuel _ hne _; exact absurd rfl hne
  | node l v r ihl ihr =>
    intro a fuel h _ hfuel
    obtain ⟨f, rfl⟩ : ∃ f, fuel = f + 1 :=
      ⟨fuel - 1, by rw [height_node] at hfuel; omega⟩
    rw [leftmostA, heapOf_at h, Option.some_bind]
    cases l with
    | leaf => rfl
    | node x y z =>
      have h2a : ¬ childAddr (BTree.node x y z) (2 * a) = 0 := by
        have h1 := h.1
        rw [childAddr]
        omega
      rw [if_neg h2a]
      have hrec := ihl (2 * a) f (atAddr_left h) (by simp)
        (by rw [height_node] at hfuel; omega)
      rw [childAddr, hrec]
      rfl

theorem climbA_eq_upExit (H : RHeap) :
    ∀ (fuel r : Nat), climbA H fuel r = (H r).bind fun nd => upExitA H fuel nd.parent := by
  intro fuel
  induction fuel with
  | zero => intro r; cases H r <;> rfl
  | succ f ih =>
    intro r
    rw [climbA]
    cases hr : H r with
    | none => rfl
    | some nd =>
      rw [Option.some_bind, Option.some_bind, upExitA]
      cases hp : H nd.parent with
      | none => rfl
      | some nd2 =>
        rw [Option.some_bind, Option.some_bind]
        by_cases h0 : nd2.parent = 0
        · rw [if_pos h0, if_pos h0]
        · rw [if_neg h0, if_neg h0]
          cases hg : H nd2.parent with
          | none => rfl
          | some nd3 =>
            rw [Option.some_bind, Option.some_bind]
            by_cases hleft : nd3.left = nd.parent
            · rw [if_pos hleft, if_pos hleft]
            · rw [if_neg hleft, if_neg hleft, ih nd.parent, hp, Option.some_bind]

theorem parentExitAddr_even (a : Nat) (h2 : 2 ≤ a) (he : a % 2 = 0) :
    parentExitAddr a = some (a / 2) := by
  obtain ⟨b, rfl⟩ : ∃ b, a = b + 2 := ⟨a - 2, by omega⟩
  rw [parentExitAddr, if_pos he]

theorem parentExitAddr_odd (a : Nat) (h2 : 2 ≤ a) (ho : a % 2 = 1) :
    parentExitAddr a = parentExitAddr (a / 2) := by
  obtain ⟨b, rfl⟩ : ∃ b, a = b + 2 := ⟨a - 2, by omega⟩
  rw [parentExitAddr, if_neg (by omega)]

theorem upExit_spec (t : BTree) :
    ∀ (a : Nat) (l : BTree) (v : Int) (r : BTree) (fuel : Nat),
      AtAddr t a (.node l v r) → (addrPath a).length < fuel →
      upExitA (heapOf t) fuel a = some (parentExitAddr a) := by
  intro a
  induction a using Nat.strong_induction_on with
  | _ a ih =>
    intro l v r fuel h hfuel
    obtain ⟨f, rfl⟩ : ∃ f, fuel = f + 1 := ⟨fuel - 1, by omega⟩
    rw [upExitA, heapOf_at h, Option.some_bind]
    by_cases ha1 : a = 1
    · subst ha1
      rw [if_pos (by rfl : (1 : Nat) / 2 = 0)]
      simp [parentExitAddr]
    · have ha2 : 2 ≤ a := by
        have h1 := h.1
        omega
      obtain ⟨pl, pv, pr, hp, hs⟩ := atAddr_parent h ha2
      rw [if_neg (by omega : ¬ a / 2 = 0), heapOf_at hp, Option.some_bind]
      by_cases hodd : a % 2 = 1
      · have hplne : ¬ childAddr pl (2 * (a / 2)) = a := by
          cases pl with
          | leaf => rw [childAddr]; omega
          | node p1 p2 p3 => rw [childAddr]; omega
        rw [if_neg hplne]
        have hpreq : BTree.node l v r = pr := by
          rw [hs, if_pos hodd]
        have hlen : (addrPath (a / 2)).length < f := by
          have := length_addrPath_ge_two a ha2
          omega
        rw [ih (a / 2) (by omega) pl pv pr f hp hlen]
        rw [parentExitAddr_odd a ha2 hodd]
      · have heven : a % 2 = 0 := by omega
        have hpleq : pl = BTree.node l v r := by
          rw [hs, if_neg hodd]
        have hpl : childAddr pl (2 * (a / 2)) = a := by
          rw [hpleq, childAddr]
          omega
        rw [if_pos hpl, parentExitAddr_even a ha2 heven]

theorem parentExit_maxAddr :
    ∀ (s : BTree) (a : Nat), 1 ≤ a → parentExitAddr (maxAddr s a) = parentExitAddr a := by
  intro s
  induction s with
  | leaf => intro a _; rfl
  | node l v r ihl ihr =>
    intro a ha
    cases r with
    | leaf => rfl
    | node x y z =>
      rw [maxAddr, ihr (2 * a + 1) (by omega),
        parentExitAddr_odd (2 * a + 1) (by omega) (by omega)]
      congr 1
      omega

theorem nextA_noright (H : RHeap) (a fuel : Nat) (nd : RNode)
    (h : H a = some nd) (hr : nd.right = 0) :
    nextA H fuel a = upExitA H (fuel + 1) a := by
  rw [nextA, h, Option.some_bind, upExitA, h, Option.some_bind,
    if_neg (by simp [hr])]
  by_cases h0 : nd.parent = 0
  · rw [if_pos h0, if_pos h0]
  · rw [if_neg h0, if_neg h0]
    cases hp : H nd.parent with
    | none => rfl
    | some pnd =>
      simp only [Option.some_bind]
      by_cases hleft : pnd.left = a
      · rw [if_pos hleft, if_pos hleft]
      · rw [if_neg hleft, if_neg hleft, climbA_eq_upExit, h, Option.some_bind]

theorem nextA_right_child (t : BTree) {a : Nat} {l : BTree} {v : Int}
    {x : BTree} {y : Int} {z : BTree} (fuel : Nat)
    (h : AtAddr t a (.node l v (.node x y z)))
    (hfuel : (BTree.node x y z).height ≤ fuel) :
    nextA (heapOf t) fuel a = some (some (minAddr (.node x y z) (2 * a + 1))) := by
  rw [nextA, heapOf_at h, Option.some_bind]
  rw [if_pos (by rw [childAddr]; omega : ¬ childAddr (BTree.node x y z) (2 * a + 1) = 0)]
  rw [childAddr, leftmost_ok t (.node x y z) (2 * a + 1) fuel (atAddr_right h) (by simp) hfuel]
  rfl

theorem inorderPairs_ne_nil (l : BTree) (v : Int) (r : BTree) (a : Nat) :
    inorderPairs (.node l v r) a ≠ [] := by
  rw [inorderPairs]
  simp

theorem inorderPairs_head (s : BTree) :
    ∀ a, s ≠ .leaf → ((inorderPairs s a).map Prod.fst).head? = some (minAddr s a) := by
  induction s with
  | leaf => intro a h; exact absurd rfl h
  | node l v r ihl ihr =>
    intro a _
    cases l with
    | leaf =>
      rw [inorderPairs]
      rfl
    | node x y z =>
      rw [inorderPairs, List.map_append,
        List.head?_append_of_ne_nil _ (by simp [inorderPairs_ne_nil]),
        ihl (2 * a) (by simp)]
      rfl

theorem inorderPairs_getLast (s : BTree) :
    ∀ a, s ≠ .leaf → ((inorderPairs s a).map Prod.fst).getLast? = some (maxAddr s a) := by
  induction s with
  | leaf => intro a h; exact absurd rfl h
  | node l v r ihl ihr =>
    intro a _
    cases r with
    | leaf =>
      rw [inorderPairs, List.map_append,
        List.getLast?_append_of_ne_nil _ (by simp)]
      rfl
    | node x y z =>
      obtain ⟨p, rest, hpr⟩ :=
        List.exists_cons_of_ne_nil (inorderPairs_ne_nil x y z (2 * a + 1))
      rw [inorderPairs, List.map_append,
        List.getLast?_append_of_ne_nil _ (by simp), List.map_cons, hpr,
        List.map_cons, List.getLast?_cons_cons]
      have hlast := ihr (2 * a + 1) (by simp)
      rw [hpr, List.map_cons] at hlast
      rw [hlast]
      rfl

theorem inorderPairs_values (t : BTree) :
    ∀ (s : BTree) (a : Nat), AtAddr t a s →
      ∀ p ∈ inorderPairs s a, ∃ nd, heapOf t p.1 = some nd ∧ nd.value = p.2 := by
  intro s
  induction s with
  | leaf => intro a _ p hp; rw [inorderPairs] at hp; exact absurd hp (by simp)
  | node l v r ihl ihr =>
    intro a h p hp
    rw [inorderPairs] at hp
    rcases List.mem_append.mp hp with hp | hp
    · exact ihl (2 * a) (atAddr_left h) p hp
    · rcases List.mem_cons.mp hp with hp | hp
      · subst hp
        exact ⟨_, heapOf_at h, rfl⟩
      · exact ihr (2 * a + 1) (atAddr_right h) p hp

theorem inorderPairs_length (s : BTree) :
    ∀ a, (inorderPairs s a).length = s.size := by
  induction s with
  | leaf => intro a; rfl
  | node l v r ihl ihr =>
    intro a
    rw [inorderPairs, size_node]
    simp [ihl, ihr]
    omega

theorem inorderPairs_snd (s : BTree) :
    ∀ a, (inorderPairs s a).map Prod.snd = s.inorder := by
  induction s with
  | leaf => intro a; rfl
  | node l v r ihl ihr =>
    intro a
    rw [inorderPairs, BTree.inorder, List.map_append, List.map_cons, ihl, ihr]

theorem labelFrom_snd (ps : List (Nat × Int)) :
    ∀ i, (labelFrom i ps).map Prod.snd = ps.map Prod.snd := by
  induction ps with
  | nil => intro i; rfl
  | cons p rest ih =>
    intro i
    rw [labelFrom, List.map_cons, List.map_cons, ih]

theorem labelFrom_length (ps : List (Nat × Int)) :
    ∀ i, (labelFrom i ps).length = ps.length := by
  induction ps with
  | nil => intro i; rfl
  | cons p rest ih =>
    intro i
    rw [labelFrom, List.length_cons, List.length_cons, ih]

theorem chain_spec (t : BTree) (F : Nat) (hF : t.height < F) :
    ∀ (s : BTree) (a : Nat), AtAddr t a s → s ≠ .leaf →
      List.Chain' (fun p q => nextA (heapOf t) F p = some (some q))
        ((inorderPairs s a).map Prod.fst) ∧
      nextA (heapOf t) F (maxAddr s a) = some (parentExitAddr a) := by
  intro s
  induction s with
  | leaf => intro a _ hne; exact absurd rfl hne
  | node l v r ihl ihr =>
    intro a h _
    have hsubheight := height_le_of_atAddr h
    rw [height_node] at hsubheight
    constructor
    · rw [inorderPairs, List.map_append, List.map_cons, List.chain'_append]
      refine ⟨?_, ?_, ?_⟩
      · cases l with
        | leaf => simp [inorderPairs]
        | node x y z => exact (ihl (2 * a) (atAddr_left h) (by simp)).1
      · rw [List.chain'_cons']
        constructor
        · intro q hq
          cases r with
          | leaf => rw [inorderPairs] at hq; simp at hq
          | node x y z =>
            rw [inorderPairs_head (.node x y z) (2 * a + 1) (by simp)] at hq
            rw [Option.mem_def, Option.some.injEq] at hq
            subst hq
            exact nextA_right_child t F h (by omega)
        · cases r with
          | leaf => simp [inorderPairs]
          | node x y z => exact (ihr (2 * a + 1) (atAddr_right h) (by simp)).1
      · intro p hp q hq
        rw [List.head?_cons, Option.mem_def, Option.some.injEq] at hq
        subst hq
        cases l with
        | leaf => rw [inorderPairs] at hp; simp at hp
        | node x y z =>
          rw [inorderPairs_getLast (.node x y z) (2 * a) (by simp)] at hp
          rw [Option.mem_def, Option.some.injEq] at hp
          subst hp
          have hexit := (ihl (2 * a) (atAddr_left h) (by simp)).2
          rw [hexit, parentExitAddr_even (2 * a) (by have := h.1; omega) (by omega)]
          congr 2
          omega
    · cases r with
      | leaf =>
        have hnext := nextA_noright (heapOf t) a F _ (heapOf_at h) (by rw [childAddr])
        have hup := upExit_spec t a l v .leaf (F + 1) h
          (by have := height_le_of_atAddr h; rw [height_node] at this; omega)
        rw [maxAddr, hnext, hup]
      | node x y z =>
        have hexit := (ihr (2 * a + 1) (atAddr_right h) (by simp)).2
        rw [maxAddr, hexit,
          parentExitAddr_odd (2 * a + 1) (by have := h.1; omega) (by omega),
          show (2 * a + 1) / 2 = a by omega]

theorem rbtreeLoop_spec (H : RHeap) (F : Nat) :
    ∀ (rest : List (Nat × Int)) (a : Nat) (v : Int) (i : Nat),
      List.Chain' (fun p q => nextA H F p = some (some q)) (a :: rest.map Prod.fst) →
      (∀ p ∈ (a, v) :: rest, ∃ nd, H p.1 = some nd ∧ nd.value = p.2) →
      (∀ x ∈ (a :: rest.map Prod.fst).getLast?, (nextA H F x).isSome) →
      rbtreeLoop H F (rest.length + 1) i a = some (labelFrom i ((a, v) :: rest)) := by
  intro rest
  induction rest with
  | nil =>
    intro a v i _ hvals hlast
    obtain ⟨nd, hnd, hval⟩ := hvals (a, v) (List.mem_cons_self _ _)
    have hs := hlast a (by simp)
    rw [rbtreeLoop, hnd, Option.some_bind]
    cases hnx : nextA H F a with
    | none => rw [hnx] at hs; exact absurd hs (by simp)
    | some o =>
      cases o with
      | none => simp [labelFrom, hval]
      | some a2 => simp [rbtreeLoop, labelFrom, hval]
  | cons p2 rest ih =>
    intro a v i hchain hvals hlast
    obtain ⟨nd, hnd, hval⟩ := hvals (a, v) (List.mem_cons_self _ _)
    rw [List.map_cons] at hchain
    have hstep : nextA H F a = some (some p2.1) := (List.chain'_cons.mp hchain).1
    have hrec := ih p2.1 p2.2 (i + 1) (List.chain'_cons.mp hchain).2
      (fun p hp => hvals p (List.mem_cons_of_mem _ hp))
      (fun x hx => hlast x (by rw [List.map_cons, List.getLast?_cons_cons]; exact hx))
    rw [show ((p2 :: rest) : List (Nat × Int)).length + 1 = rest.length + 1 + 1 by simp,
      rbtreeLoop, hnd, Option.some_bind, hstep]
    simp [hrec, labelFrom, hval]

theorem inorder_chain_of_isBST :
    ∀ (t : BTree), t.isBST = true → List.Chain' (· < ·) t.inorder := by
  intro t
  induction t with
  | leaf => intro _; simp [BTree.inorder]
  | node l v r ihl ihr =>
    intro h
    rw [BTree.isBST] at h
    simp only [Bool.and_eq_true, List.all_eq_true, decide_eq_true_eq] at h
    obtain ⟨⟨⟨hbl, hbr⟩, hlv⟩, hrv⟩ := h
    rw [BTree.inorder, List.chain'_append]
    refine ⟨ihl hbl, ?_, ?_⟩
    · rw [List.chain'_cons']
      exact ⟨fun y hy => hrv y (List.mem_of_mem_head? hy), ihr hbr⟩
    · intro x hx y hy
      rw [List.head?_cons, Option.mem_def, Option.some.injEq] at hy
      subst hy
      exact hlv x (List.mem_of_mem_getLast? hx)

/-- C3: decoding the canonical embedding of any binary tree `t` with
stored size `t.size` yields exactly the `t.size` stored values, labelled
`0, 1, …`, in in-order sequence; in particular when `t` satisfies the
binary-search ordering the decoded value sequence is strictly sorted. -/
theorem rbtree_children_inorder (t : BTree) :
    rbtreeChildren (heapOf t) (mkRBTreeVal t) (t.height + 1) =
      some (labelFrom 0 (inorderPairs t 1)) ∧
    (labelFrom 0 (inorderPairs t 1)).map Prod.snd = t.inorder ∧
    (labelFrom 0 (inorderPairs t 1)).length = t.size ∧
    (t.isBST = true → List.Chain' (· < ·) t.inorder) := by
  refine ⟨?_, ?_, ?_, inorder_chain_of_isBST t⟩
  · cases ht : t with
    | leaf => rfl
    | node l v r =>
      rw [← ht]
      have htne : t ≠ .leaf := by rw [ht]; simp
      have hroot : (parseCompressedPair (mkRBTreeVal t).root_data).1 = 1 := by
        rw [ht]; rfl
      have hsize : (parseCompressedPair (mkRBTreeVal t).size_data).1 = t.size := rfl
      rw [rbtreeChildren, hroot, hsize]
      rw [if_neg (by omega)]
      have hF : t.height < t.height + 1 := by omega
      have hlm := leftmost_ok t t 1 (t.height + 1) (atAddr_root t) htne (by omega)
      rw [hlm, Option.some_bind]
      obtain ⟨p, rest, hpr⟩ :=
        List.exists_cons_of_ne_nil (show inorderPairs t 1 ≠ [] by
          rw [ht]; exact inorderPairs_ne_nil l v r 1)
      have hchain := (chain_spec t (t.height + 1) hF t 1 (atAddr_root t) htne).1
      have hexit := (chain_spec t (t.height + 1) hF t 1 (atAddr_root t) htne).2
      have hhead := inorderPairs_head t 1 htne
      have hlastaddr := inorderPairs_getLast t 1 htne
      rw [hpr, List.map_cons] at hchain hhead hlastaddr
      rw [List.head?_cons, Option.some.injEq] at hhead
      have hvals := inorderPairs_values t t 1 (atAddr_root t)
      rw [hpr] at hvals
      have hlen : t.size = rest.length + 1 := by
        have := inorderPairs_length t 1
        rw [hpr] at this
        simp at this
        omega
      have hloop := rbtreeLoop_spec (heapOf t) (t.height + 1) rest p.1 p.2 0
        hchain (by simpa using hvals)
        (fun x hx => by
          rw [hlastaddr, Option.mem_def, Option.some.injEq] at hx
          subst hx
          rw [hexit]
          rfl)
      rw [← hhead, hlen, hloop, hpr]
  · exact (labelFrom_snd _ 0).trans (inorderPairs_snd t 1)
  · exact (labelFrom_length _ 0).trans (inorderPairs_length t 1)

/-- Concrete witness tree for `rbtree_children_inorder`. -/
def tEx : BTree := .node (.node .leaf 1 .leaf) 2 (.node .leaf 3 .leaf)

/-- Witness for `rbtree_children_inorder`: the embedded three-node
search tree decodes to its three values in sorted order. -/
theorem rbtree_children_inorder_witness :
    rbtreeChildren (heapOf tEx) (mkRBTreeVal tEx) (tEx.height + 1) =
      some [("0", 1), ("1", 2), ("2", 3)] ∧
    List.Chain' (· < ·) tEx.inorder :=
  ⟨((rbtree_children_inorder tEx).1).trans (by decide),
    (rbtree_children_inorder tEx).2.2.2 (by decide)⟩

end PrettyPrint
